import Mathlib

/-!
Verification development for the query-and-tabulation core of
`stat_boards.py` (the `access` path resolver and the `tablefy` tabulator).

The source is Python 2 code.  The embedding models Python values as the
inductive type `Val` (scalars: str / int / bool / None; containers: list
and string-keyed dict).  Python tuples and sets are modelled as lists:
for every operation the core performs on them (iteration, membership,
`len`) they behave exactly like lists, and the one place where a set's
unspecified iteration order could matter is immediately followed by a
`sort`, which canonicalises it.  Fallible Python code (exceptions) is
modelled with `Except Err`.

Python 2 specifics that the embedding reproduces faithfully:
  * `hasattr(x, '__iter__')` is False for strings in Python 2, so strings
    count as scalars for every `__iter__` test in the source;
  * `for c in s` and `zip(*...)` nevertheless iterate strings
    character-by-character (the `__getitem__` protocol), which `pyIter`
    models;
  * comparing an int with a str (`key[0] < len(container)`) does not
    raise in Python 2: numbers sort before strings, so the comparison is
    False — modelled by `keyLtLen`;
  * `True == 1` and `False == 0`: Python equality identifies bools with
    their numeric value, modelled by `pyEq` via `numVal`;
  * Python 2 mixed-type ordering: None is smallest, numbers next, all
    remaining types ordered by type name (dict < list < str), modelled
    by `pyCmp`.  CPython's exact dict-vs-dict ordering (size first, then
    smallest differing key) is approximated by size first, then the
    entry list lexicographically; nothing in the claims sorts dicts.
-/

/-- Python values flowing through `access` and `tablefy`: scalars,
lists (also standing for tuples and sets) and string-keyed dicts.
`vdict` entries are the dict's items in iteration order; a Python dict
cannot hold a duplicate key. -/
inductive Val : Type where
  | vstr  : String → Val
  | vint  : Int → Val
  | vbool : Bool → Val
  | vnone : Val
  | vlist : List Val → Val
  | vdict : List (String × Val) → Val
deriving Repr

/-- Python exception kinds raised by the modelled code. -/
inductive Err : Type where
  | typeError | keyError | indexError | assertionError | attributeError
deriving Repr, DecidableEq

/-- One parsed segment of a keystring: a string key or a numeric index
(`access` coerces all-digit segments with `int(...)`, so indices are
non-negative).  The wildcard is the empty string key `Key.str ""`,
exactly as in the source where the parsed list holds `''`. -/
inductive Key : Type where
  | str : String → Key
  | idx : Nat → Key
deriving Repr, DecidableEq

mutual

def valDecEq : (a b : Val) → Decidable (a = b)
  | .vstr a, .vstr b =>
    if h : a = b then isTrue (by rw [h]) else isFalse (by intro he; cases he; exact h rfl)
  | .vint a, .vint b =>
    if h : a = b then isTrue (by rw [h]) else isFalse (by intro he; cases he; exact h rfl)
  | .vbool a, .vbool b =>
    if h : a = b then isTrue (by rw [h]) else isFalse (by intro he; cases he; exact h rfl)
  | .vnone, .vnone => isTrue rfl
  | .vlist a, .vlist b =>
    match valListDecEq a b with
    | isTrue h => isTrue (by rw [h])
    | isFalse h => isFalse (by intro he; cases he; exact h rfl)
  | .vdict a, .vdict b =>
    match valPairsDecEq a b with
    | isTrue h => isTrue (by rw [h])
    | isFalse h => isFalse (by intro he; cases he; exact h rfl)
  | .vstr _, .vint _ => isFalse (by intro he; cases he)
  | .vstr _, .vbool _ => isFalse (by intro he; cases he)
  | .vstr _, .vnone => isFalse (by intro he; cases he)
  | .vstr _, .vlist _ => isFalse (by intro he; cases he)
  | .vstr _, .vdict _ => isFalse (by intro he; cases he)
  | .vint _, .vstr _ => isFalse (by intro he; cases he)
  | .vint _, .vbool _ => isFalse (by intro he; cases he)
  | .vint _, .vnone => isFalse (by intro he; cases he)
  | .vint _, .vlist _ => isFalse (by intro he; cases he)
  | .vint _, .vdict _ => isFalse (by intro he; cases he)
  | .vbool _, .vstr _ => isFalse (by intro he; cases he)
  | .vbool _, .vint _ => isFalse (by intro he; cases he)
  | .vbool _, .vnone => isFalse (by intro he; cases he)
  | .vbool _, .vlist _ => isFalse (by intro he; cases he)
  | .vbool _, .vdict _ => isFalse (by intro he; cases he)
  | .vnone, .vstr _ => isFalse (by intro he; cases he)
  | .vnone, .vint _ => isFalse (by intro he; cases he)
  | .vnone, .vbool _ => isFalse (by intro he; cases he)
  | .vnone, .vlist _ => isFalse (by intro he; cases he)
  | .vnone, .vdict _ => isFalse (by intro he; cases he)
  | .vlist _, .vstr _ => isFalse (by intro he; cases he)
  | .vlist _, .vint _ => isFalse (by intro he; cases he)
  | .vlist _, .vbool _ => isFalse (by intro he; cases he)
  | .vlist _, .vnone => isFalse (by intro he; cases he)
  | .vlist _, .vdict _ => isFalse (by intro he; cases he)
  | .vdict _, .vstr _ => isFalse (by intro he; cases he)
  | .vdict _, .vint _ => isFalse (by intro he; cases he)
  | .vdict _, .vbool _ => isFalse (by intro he; cases he)
  | .vdict _, .vnone => isFalse (by intro he; cases he)
  | .vdict _, .vlist _ => isFalse (by intro he; cases he)

def valListDecEq : (a b : List Val) → Decidable (a = b)
  | [], [] => isTrue rfl
  | a :: as1, b :: bs1 =>
    match valDecEq a b, valListDecEq as1 bs1 with
    | isTrue h1, isTrue h2 => isTrue (by rw [h1, h2])
    | isFalse h1, _ => isFalse (by intro he; injection he with e1 e2; exact h1 e1)
    | _, isFalse h2 => isFalse (by intro he; injection he with e1 e2; exact h2 e2)
  | [], _ :: _ => isFalse (by intro he; cases he)
  | _ :: _, [] => isFalse (by intro he; cases he)

def valPairsDecEq : (a b : List (String × Val)) → Decidable (a = b)
  | [], [] => isTrue rfl
  | (ka, va) :: as1, (kb, vb) :: bs1 =>
    match valDecEq va vb, valPairsDecEq as1 bs1 with
    | isTrue h1, isTrue h2 =>
      if h0 : ka = kb then isTrue (by rw [h0, h1, h2])
      else isFalse (by intro he; injection he with e1 e2; injection e1 with e3 e4; exact h0 e3)
    | isFalse h1, _ => isFalse (by
        intro he; injection he with e1 e2; injection e1 with e3 e4; exact h1 e4)
    | _, isFalse h2 => isFalse (by intro he; injection he with e1 e2; exact h2 e2)
  | [], _ :: _ => isFalse (by intro he; cases he)
  | _ :: _, [] => isFalse (by intro he; cases he)

end

instance : DecidableEq Val := valDecEq

instance {ε α : Type} [DecidableEq ε] [DecidableEq α] : DecidableEq (Except ε α) := fun a b =>
  match a, b with
  | .ok x, .ok y =>
    if h : x = y then isTrue (by rw [h]) else isFalse (by intro he; cases he; exact h rfl)
  | .error x, .error y =>
    if h : x = y then isTrue (by rw [h]) else isFalse (by intro he; cases he; exact h rfl)
  | .ok _, .error _ => isFalse (by intro he; cases he)
  | .error _, .ok _ => isFalse (by intro he; cases he)

/-! ## Keystring parsing

Source (`access`, lines 94-98):
```
key_sequence = keystring.rstrip(':').split(':')
for i in range(len(key_sequence)):
    if key_sequence[i].isdigit():
        key_sequence[i] = int(key_sequence[i])
```
-/

/-- Model of Python `str.split(sep)` for a one-character separator,
working on the character list (`''.split(':') == ['']`,
`'a::b'.split(':') == ['a','','b']`). -/
def splitChars (sep : Char) : List Char → List (List Char)
  | [] => [[]]
  | c :: cs =>
    if c = sep then [] :: splitChars sep cs
    else
      match splitChars sep cs with
      | g :: gs => (c :: g) :: gs
      | [] => [[c]]

def pySplit (s : String) (sep : Char) : List String :=
  (splitChars sep s.data).map (fun l => ⟨l⟩)

/-- Model of Python `str.rstrip(':')`: remove every trailing colon. -/
def pyRstripColon (s : String) : String :=
  ⟨(s.data.reverse.dropWhile (fun c => c = ':')).reverse⟩

/-- Numeric value of an all-digit string, as Python `int(...)` computes it. -/
def digitsToNat (s : String) : Nat :=
  s.data.foldl (fun a c => 10 * a + (c.toNat - 48)) 0

/-- Coercion of one split segment: Python `s.isdigit()` is true exactly
for non-empty all-digit strings, and such segments are replaced by
`int(s)`; everything else (including the empty wildcard segment) stays
a string. -/
def parseSeg (s : String) : Key :=
  if s ≠ "" ∧ s.data.all Char.isDigit then Key.idx (digitsToNat s) else Key.str s

/-- The parsed `key_sequence` of `access`. -/
def parseKeystring (ks : String) : List Key :=
  (pySplit (pyRstripColon ks) ':').map parseSeg

/-! ## The `use_key` recursion of `access` (lines 99-123) -/

/-- Python 2 `hasattr(v, '__iter__')`: true for lists (also tuples and
sets, modelled as lists) and dicts, false for strings and all other
scalars. -/
def isIter : Val → Bool
  | .vlist _ => true
  | .vdict _ => true
  | _ => false

/-- Python `len(v)`: defined for strings, lists and dicts; TypeError
otherwise. -/
def pyLen : Val → Except Err Nat
  | .vstr s => .ok s.data.length
  | .vlist l => .ok l.length
  | .vdict d => .ok d.length
  | _ => .error .typeError

def dictLookup (d : List (String × Val)) (k : String) : Option Val :=
  (d.find? (fun p => p.1 = k)).map (fun p => p.2)

/-- Python `container[key]` for the value/key shapes the source can
produce: dict lookup (KeyError when absent; an int key is never a member
of a string-keyed dict), list indexing (IndexError out of range,
TypeError on a string key), string indexing (a one-character string),
TypeError on non-subscriptable scalars. -/
def pySubscript : Val → Key → Except Err Val
  | .vdict d, .str k =>
    match dictLookup d k with
    | some v => .ok v
    | none => .error .keyError
  | .vdict _, .idx _ => .error .keyError
  | .vlist l, .idx n => if n < l.length then .ok (l.getD n .vnone) else .error .indexError
  | .vlist _, .str _ => .error .typeError
  | .vstr s, .idx n =>
    if n < s.data.length then .ok (.vstr ⟨[s.data.getD n ' ']⟩) else .error .indexError
  | .vstr _, .str _ => .error .typeError
  | _, _ => .error .typeError

/-- Python 2 evaluation of `key[0] < len(container)`: an int compares
numerically, while a str key compares False (in Python 2 every number
is smaller than every string, so `str < int` is False). -/
def keyLtLen (k : Key) (n : Nat) : Bool :=
  match k with
  | .idx m => m < n
  | .str _ => false

/-- Python `key[0] in container` for a dict container. -/
def keyInDict (k : Key) (d : List (String × Val)) : Bool :=
  match k with
  | .str s => d.any (fun p => p.1 = s)
  | .idx _ => false

/-- The final branch of `use_key` (lines 117-122):
```
if (isinstance(container, dict) and key[0] in container) or\
    (hasattr(container, '__iter__') and key[0]<len(container)):
    return container[key[0]]
else:
    return None
``` -/
def lastLookup (c : Val) (k : Key) : Except Err Val :=
  let inDict := match c with
    | .vdict d => keyInDict k d
    | _ => false
  let iterLt := isIter c && (match c with
    | .vlist l => keyLtLen k l.length
    | .vdict d => keyLtLen k d.length
    | _ => false)
  if inDict || iterLt then pySubscript c k else .ok .vnone

/-- Sequencing of an in-order result list: the `items.append(...)` loop
of `use_key` stops at the first exception, so the collected list is the
results up to the first error (the code is pure, so computing each
result first and then cutting at the first error is the same thing). -/
def collectResults : List (Except Err Val) → Except Err (List Val)
  | [] => .ok []
  | .error e :: _ => .error e
  | .ok v :: rest =>
    match collectResults rest with
    | .ok vs => .ok (v :: vs)
    | .error e => .error e

/-- The recursive `use_key(key, container)` of `access`.  An empty key
list models Python evaluating `key[0]` on an empty list, which raises
IndexError.  The wildcard branch follows the source exactly: dicts are
iterated with the per-element `len(key)>1` test, every other object
with `__iter__` (lists) is iterated *without* that test (so a trailing
wildcard over a list recurses into an empty key list), and anything
else falls through to `return items` with `items == []`. -/
def useKey : List Key → Val → Except Err Val
  | [], _ => .error .indexError
  | k :: rest, c =>
    if k = Key.str "" then
      match c with
      | .vdict d =>
        if rest = [] then .ok (.vlist (d.map (fun p => p.2)))
        else
          match collectResults ((d.map (fun p => p.2)).map (fun v => useKey rest v)) with
          | .ok items => .ok (.vlist items)
          | .error e => .error e
      | .vlist l =>
        match collectResults (l.map (fun v => useKey rest v)) with
        | .ok items => .ok (.vlist items)
        | .error e => .error e
      | _ => .ok (.vlist [])
    else
      if rest = [] then lastLookup c k
      else
        match pySubscript c k with
        | .ok v => useKey rest v
        | .error e => .error e
termination_by structural keys _ => keys

/-- `access(keystring, container)` (lines 94-123). -/
def access (keystring : String) (container : Val) : Except Err Val :=
  useKey (parseKeystring keystring) container

/-! ## Python 2 comparison, equality, sorting, membership, iteration

These model the building blocks `tablefy` relies on: `list(set(...))`
followed by `.sort()`, `x in c`, `cols.index(col)`, `zip(*cols)` and
`newrow.extend(cell)`. -/

/-- Numeric value of a Python number: bools are ints (`True == 1`). -/
def numVal : Val → Option Int
  | .vint n => some n
  | .vbool b => some (if b then 1 else 0)
  | _ => none

/-- Python 2 cross-type ordering rank: None is smallest, numbers next,
every other type ordered by its type name (dict < list < str). -/
def pyRank : Val → Nat
  | .vnone => 0
  | .vint _ => 1
  | .vbool _ => 1
  | .vdict _ => 2
  | .vlist _ => 3
  | .vstr _ => 4

/-- Three-way comparison of naturals, written out so that it both
kernel-reduces and proves easily. -/
def cmpNat (a b : Nat) : Ordering :=
  if a < b then .lt else if a = b then .eq else .gt

def cmpInt (a b : Int) : Ordering :=
  if a < b then .lt else if a = b then .eq else .gt

/-- Lexicographic byte comparison of strings (Python 2 str ordering). -/
def cmpChars : List Char → List Char → Ordering
  | [], [] => .eq
  | [], _ :: _ => .lt
  | _ :: _, [] => .gt
  | a :: as1, b :: bs1 =>
    match cmpNat a.toNat b.toNat with
    | .eq => cmpChars as1 bs1
    | o => o

mutual

/-- Python 2 `cmp(a, b)`: numbers compare numerically (bools as ints),
equal-type strings/lists compare lexicographically, dicts compare by
size first and then by their entry lists, and any remaining mixed pair
compares by `pyRank`. -/
def pyCmp : Val → Val → Ordering
  | .vstr a, .vstr b => cmpChars a.data b.data
  | .vnone, .vnone => .eq
  | .vlist a, .vlist b => pyCmpList a b
  | .vdict a, .vdict b =>
    match cmpNat a.length b.length with
    | .eq => pyCmpPairs a b
    | o => o
  | a, b =>
    match numVal a, numVal b with
    | some x, some y => cmpInt x y
    | _, _ => cmpNat (pyRank a) (pyRank b)

def pyCmpList : List Val → List Val → Ordering
  | [], [] => .eq
  | [], _ :: _ => .lt
  | _ :: _, [] => .gt
  | a :: as1, b :: bs1 =>
    match pyCmp a b with
    | .eq => pyCmpList as1 bs1
    | o => o

def pyCmpPairs : List (String × Val) → List (String × Val) → Ordering
  | [], [] => .eq
  | [], _ :: _ => .lt
  | _ :: _, [] => .gt
  | (ka, va) :: as1, (kb, vb) :: bs1 =>
    match cmpChars ka.data kb.data with
    | .eq =>
      match pyCmp va vb with
      | .eq => pyCmpPairs as1 bs1
      | o => o
    | o => o

end

/-- Python `a == b` (derived from the comparison, as CPython 2 does for
these built-in types). -/
def pyEq (a b : Val) : Bool := pyCmp a b = .eq

/-- Stable insertion used by `pySort`. -/
def pyInsert (a : Val) : List Val → List Val
  | [] => [a]
  | b :: bs => if pyCmp a b = .gt then b :: pyInsert a bs else a :: b :: bs

/-- Python `list.sort()` under the Python 2 ordering. -/
def pySort : List Val → List Val
  | [] => []
  | a :: rest => pyInsert a (pySort rest)

def pyDedupAux : List Val → List Val → List Val
  | _, [] => []
  | seen, a :: rest =>
    if seen.any (fun b => pyEq b a) then pyDedupAux seen rest
    else a :: pyDedupAux (seen ++ [a]) rest

/-- The distinct values of a list in first-occurrence order: the effect
of building a Python `set` from it.  The set's unspecified iteration
order is irrelevant because `tablefy` immediately sorts the result. -/
def pyDedup (l : List Val) : List Val := pyDedupAux [] l

/-- Substring test (`needle in haystack` for Python strings). -/
def isSubChars (n : List Char) : List Char → Bool
  | [] => n.isEmpty
  | c :: cs => n.isPrefixOf (c :: cs) || isSubChars n cs

/-- Python `x in c`: list membership by `==`, dict key membership,
substring test for strings (TypeError when the left operand of a string
test is not a string), TypeError on non-iterable containers. -/
def pyIn (x : Val) : Val → Except Err Bool
  | .vlist l => .ok (l.any (fun v => pyEq v x))
  | .vdict d => .ok (d.any (fun p => pyEq (.vstr p.1) x))
  | .vstr s =>
    match x with
    | .vstr t => .ok (isSubChars t.data s.data)
    | _ => .error .typeError
  | _ => .error .typeError

/-- Total version of `pyIn` for use in theorem statements (equal to
`pyIn` whenever that succeeds). -/
def pyMem (x c : Val) : Bool :=
  match pyIn x c with
  | .ok b => b
  | .error _ => false

/-- The Python `for` / `zip` iteration protocol: lists yield elements,
dicts yield keys, strings yield one-character strings, scalars raise
TypeError. -/
def pyIter : Val → Except Err (List Val)
  | .vlist l => .ok l
  | .vdict d => .ok (d.map (fun p => .vstr p.1))
  | .vstr s => .ok (s.data.map (fun c => .vstr ⟨[c]⟩))
  | _ => .error .typeError

def pyIterAll : List Val → Except Err (List (List Val))
  | [] => .ok []
  | v :: vs =>
    match pyIter v with
    | .ok l =>
      match pyIterAll vs with
      | .ok ls => .ok (l :: ls)
      | .error e => .error e
    | .error e => .error e

/-- The set comprehension `{ item for entry in col for item in entry }`
of `tablefy`, before deduplication: all items of all entries in order. -/
def colItems (col : Val) : Except Err (List Val) :=
  match pyIter col with
  | .ok entries =>
    match pyIterAll entries with
    | .ok ls => .ok ls.flatten
    | .error e => .error e
  | .error e => .error e

/-! ## `tablefy` (lines 130-190) -/

/-- Python whitespace for `str.strip()`. -/
def pyIsSpace (c : Char) : Bool :=
  c = ' ' || c = '\t' || c = '\n' || c = '\r' || c = '\x0b' || c = '\x0c'

/-- Python `str.strip()`. -/
def pyStrip (s : String) : String :=
  ⟨((s.data.dropWhile pyIsSpace).reverse.dropWhile pyIsSpace).reverse⟩

/-- `keystrings = [expr.strip() for expr in keystring.split(',')]`. -/
def splitExprs (ks : String) : List String := (pySplit ks ',').map pyStrip

/-- The column comprehension
`cols = [ access(keystring_, struct) for keystring_ in keystrings ]`,
propagating the first exception. -/
def accessList : List String → Val → Except Err (List Val)
  | [], _ => .ok []
  | k :: ksr, s =>
    match access k s with
    | .ok c =>
      match accessList ksr s with
      | .ok cs => .ok (c :: cs)
      | .error e => .error e
    | .error e => .error e

def getCols (ks : String) (struct : Val) : Except Err (List Val) :=
  accessList (splitExprs ks) struct

/-- One iteration of `for col in cols: assert len(col)==len(cols[0])`:
`len(col)` is evaluated first, then `len(cols[0])`, then the assert. -/
def checkColsAux (c0 : Val) : List Val → Except Err Unit
  | [] => .ok ()
  | c :: cs =>
    match pyLen c with
    | .ok n =>
      match pyLen c0 with
      | .ok n0 => if n = n0 then checkColsAux c0 cs else .error .assertionError
      | .error e => .error e
    | .error e => .error e

/-- The row-count assertion loop.  An empty `cols` runs the loop zero
times and never touches `cols[0]`. -/
def checkCols : List Val → Except Err Unit
  | [] => .ok ()
  | c :: cs => checkColsAux c (c :: cs)

/-- Python `cols.index(col)`: position of the first column whose current
value equals `col` (`list.index` compares by `==`). -/
def colsIndex (cols : List Val) (col : Val) : Nat :=
  cols.findIdx (fun c => pyEq c col)

/-- The inner `map(lambda x: x in col[i], bool_names)` for one entry. -/
def entryBools (e : Val) : List Val → Except Err (List Val)
  | [] => .ok []
  | x :: xs =>
    match pyIn x e with
    | .ok b =>
      match entryBools e xs with
      | .ok bs => .ok (.vbool b :: bs)
      | .error er => .error er
    | .error er => .error er

/-- The `for i in range(len(col)): col[i] = map(...)` rewrite of one
column's entries. -/
def expandEntries (names : List Val) : List Val → Except Err (List Val)
  | [] => .ok []
  | e :: es =>
    match entryBools e names with
    | .ok bs =>
      match expandEntries names es with
      | .ok rest => .ok (.vlist bs :: rest)
      | .error er => .error er
    | .error er => .error er

/-- One iteration of the expansion loop, for the column at position `j`
of the current (already partially mutated) `cols`.  Follows the source:
test `hasattr(col[0], '__iter__')`, collect and sort the distinct
items, record `[cols.index(col), bool_names]`, then rewrite the
column's entries in place.  `cols.index` runs against the current
column values, which is what makes duplicated columns subtle. -/
def expandStep (cols : List Val) (exp : List (Nat × List Val)) (j : Nat) :
    Except Err (List Val × List (Nat × List Val)) :=
  let col := cols.getD j .vnone
  match pySubscript col (.idx 0) with
  | .error e => .error e
  | .ok e0 =>
    if isIter e0 then
      match colItems col with
      | .error e => .error e
      | .ok items =>
        let names := pySort (pyDedup items)
        let i := colsIndex cols col
        match col with
        | .vlist entries =>
          match expandEntries names entries with
          | .ok newEntries => .ok (cols.set j (.vlist newEntries), exp ++ [(i, names)])
          | .error e => .error e
        | _ => .error .typeError
    else .ok (cols, exp)

def expandColsFrom : Nat → Nat → List Val → List (Nat × List Val) →
    Except Err (List Val × List (Nat × List Val))
  | _, 0, cols, exp => .ok (cols, exp)
  | j, fuel + 1, cols, exp =>
    match expandStep cols exp j with
    | .ok (cols1, exp1) => expandColsFrom (j + 1) fuel cols1 exp1
    | .error e => .error e

/-- The whole `if expand_lists_to_bool:` loop (lines 152-159). -/
def expandCols (cols : List Val) : Except Err (List Val × List (Nat × List Val)) :=
  expandColsFrom 0 cols.length cols []

/-- `for i, expansion in cols_expanded: header[i] = expansion`. -/
def applyExpansions : List Val → List (Nat × List Val) → List Val
  | header, [] => header
  | header, (i, names) :: rest => applyExpansions (header.set i (.vlist names)) rest

def hasAlpha (s : String) : Bool := s.data.any Char.isAlpha

/-- Header prettification of one string header (lines 166-169):
`re.search(r'([a-zA-Z].*)', h)` finds the first ASCII letter and takes
the rest of that line; when there is no letter, `search` returns `None`
and `.group(1)` raises AttributeError.  `re.sub(r':.*', '', ...)` then
cuts at the first colon. -/
def prettifyStr (s : String) : Except Err String :=
  match s.data.dropWhile (fun c => !c.isAlpha) with
  | [] => .error .attributeError
  | c :: cs => .ok ⟨((c :: cs).takeWhile (fun ch => ch ≠ '\n')).takeWhile (fun ch => ch ≠ ':')⟩

/-- The header prettification loop: strings go through `prettifyStr`,
non-string headers (expansion value lists) pass through unchanged. -/
def prettifyHeader : List Val → Except Err (List Val)
  | [] => .ok []
  | .vstr s :: rest =>
    match prettifyStr s with
    | .ok t =>
      match prettifyHeader rest with
      | .ok r => .ok (.vstr t :: r)
      | .error e => .error e
    | .error e => .error e
  | h :: rest =>
    match prettifyHeader rest with
    | .ok r => .ok (h :: r)
    | .error e => .error e

def minLen (ls : List (List Val)) : Nat :=
  match ls.map List.length with
  | [] => 0
  | n :: ns => ns.foldl min n

/-- `zip(*cols)`: iterate every column with the `for` protocol and
transpose, truncating to the shortest column. -/
def zipCols (cols : List Val) : Except Err (List (List Val)) :=
  match pyIterAll cols with
  | .ok ls => .ok ((List.range (minLen ls)).map (fun r => ls.map (fun l => l.getD r .vnone)))
  | .error e => .error e

/-- Flattening of one cell (lines 183-186): cells with `__iter__`
(lists; dicts would contribute their keys) are spliced, everything else
(including strings, which lack `__iter__` in Python 2) stays one cell. -/
def flattenCell : Val → List Val
  | .vlist l => l
  | .vdict d => d.map (fun p => .vstr p.1)
  | c => [c]

def flattenRow (row : List Val) : List Val := (row.map flattenCell).flatten

def flattenRows (rows : List (List Val)) : List (List Val) := rows.map flattenRow

/-- `tablefy(keystring, struct, expand_lists_to_bool, flatten_lists)`
(lines 130-190): split the expressions, resolve one column per
expression, assert equal column lengths, optionally expand list-valued
columns to boolean columns, substitute expansions into the header,
prettify string headers, transpose into rows, optionally flatten. -/
def tablefy (keystring : String) (struct : Val)
    (expandListsToBool flattenLists : Bool) : Except Err (List (List Val)) :=
  let keystrings := splitExprs keystring
  let header0 : List Val := keystrings.map Val.vstr
  match getCols keystring struct with
  | .error e => .error e
  | .ok cols =>
    match checkCols cols with
    | .error e => .error e
    | .ok _ =>
      match (if expandListsToBool then expandCols cols else .ok (cols, [])) with
      | .error e => .error e
      | .ok (cols1, exp) =>
        match prettifyHeader (applyExpansions header0 exp) with
        | .error e => .error e
        | .ok header =>
          match zipCols cols1 with
          | .error e => .error e
          | .ok zipped =>
            let rows := header :: zipped
            .ok (if flattenLists then flattenRows rows else rows)

/-! ## Heap model for the frame/mutation claim

The pure model above cannot express Python's object identity, which is
what decides whether `tablefy`'s in-place column mutation
(`col[i] = map(...)`) touches the caller's structure.  This refinement
gives list and dict nodes identity: a heap is a list of nodes addressed
by position, allocation appends, and `access`/`tablefy` are re-read
from the source as address-passing functions.  `access` only reads and
allocates; the expansion loop of `tablefy` is the single place in the
source that writes to an existing node. -/

/-- A heap node: one Python object.  Scalars are immutable; `hlist` and
`hdict` hold the addresses of their elements. -/
inductive HNode : Type where
  | hstr : String → HNode
  | hint : Int → HNode
  | hbool : Bool → HNode
  | hnone : HNode
  | hlist : List Nat → HNode
  | hdict : List (String × Nat) → HNode
deriving Repr, DecidableEq

/-- A heap: node at address `a` is entry `a`; allocation appends. -/
abbrev Heap : Type := List HNode

def heapGet (h : Heap) (a : Nat) : HNode := List.getD h a .hnone

def heapSet (h : Heap) (a : Nat) (n : HNode) : Heap := List.set h a n

def heapLen (h : Heap) : Nat := List.length h

def allocH (h : Heap) (n : HNode) : Nat × Heap := (heapLen h, h ++ [n])

/-- Fuelled read-back of the value rooted at an address (the heaps our
executions build are acyclic, and every caller passes ample fuel). -/
def readValF : Nat → Heap → Nat → Val
  | 0, _, _ => .vnone
  | fuel + 1, h, a =>
    match heapGet h a with
    | .hstr s => .vstr s
    | .hint n => .vint n
    | .hbool b => .vbool b
    | .hnone => .vnone
    | .hlist l => .vlist (l.map (readValF fuel h))
    | .hdict d => .vdict (d.map (fun p => (p.1, readValF fuel h p.2)))

def readVal (h : Heap) (a : Nat) : Val := readValF (heapLen h + 1) h a

/-- Heap-level `container[key]`.  Dict and list lookup return the
stored address; string indexing builds a fresh one-character string. -/
def subscriptH (h : Heap) (a : Nat) (k : Key) : Except Err (Nat × Heap) :=
  match heapGet h a, k with
  | .hdict d, .str s =>
    match (d.find? (fun p => p.1 = s)).map (fun p => p.2) with
    | some b => .ok (b, h)
    | none => .error .keyError
  | .hdict _, .idx _ => .error .keyError
  | .hlist l, .idx n => if n < l.length then .ok (l.getD n 0, h) else .error .indexError
  | .hlist _, .str _ => .error .typeError
  | .hstr s, .idx n =>
    if n < s.data.length then .ok (allocH h (.hstr ⟨[s.data.getD n ' ']⟩))
    else .error .indexError
  | .hstr _, .str _ => .error .typeError
  | _, _ => .error .typeError

def nodeIsIter : HNode → Bool
  | .hlist _ => true
  | .hdict _ => true
  | _ => false

def nodeLenAt (h : Heap) (a : Nat) : Except Err Nat :=
  match heapGet h a with
  | .hstr s => .ok s.data.length
  | .hlist l => .ok l.length
  | .hdict d => .ok d.length
  | _ => .error .typeError

/-- Heap-level final branch of `use_key`: the same containment test as
`lastLookup`; an absent field materialises a fresh `None` object. -/
def lastLookupH (h : Heap) (a : Nat) (k : Key) : Except Err (Nat × Heap) :=
  let nd := heapGet h a
  let inDict := match nd with
    | .hdict d => keyInDict k (d.map (fun p => (p.1, Val.vnone)))
    | _ => false
  let iterLt := nodeIsIter nd && (match nd with
    | .hlist l => keyLtLen k l.length
    | .hdict d => keyLtLen k d.length
    | _ => false)
  if inDict || iterLt then subscriptH h a k
  else .ok (allocH h .hnone)

/-- Heap-threading fold of a per-address action over an address list:
the `items.append(...)` loop shape. -/
def foldAddrs (f : Nat → Heap → Except Err (Nat × Heap)) :
    List Nat → Heap → Except Err (List Nat × Heap)
  | [], h => .ok ([], h)
  | a :: as1, h =>
    match f a h with
    | .ok (r, h1) =>
      match foldAddrs f as1 h1 with
      | .ok (rs, h2) => .ok (r :: rs, h2)
      | .error e => .error e
    | .error e => .error e

/-- Heap-level `use_key`, fuelled so that the definition is structural.
Every recursive call consumes one key and one unit of fuel, so a call
with `fuel > keys.length` never reaches the out-of-fuel branch (callers
pass `keys.length + 1`). -/
def useKeyHF : Nat → List Key → Nat → Heap → Except Err (Nat × Heap)
  | 0, _, _, _ => .error .typeError
  | _ + 1, [], _, _ => .error .indexError
  | fuel + 1, k :: rest, a, h =>
    if k = Key.str "" then
      match heapGet h a with
      | .hdict d =>
        if rest = [] then .ok (allocH h (.hlist (d.map (fun p => p.2))))
        else
          match foldAddrs (useKeyHF fuel rest) (d.map (fun p => p.2)) h with
          | .ok (items, h1) => .ok (allocH h1 (.hlist items))
          | .error e => .error e
      | .hlist l =>
        match foldAddrs (useKeyHF fuel rest) l h with
        | .ok (items, h1) => .ok (allocH h1 (.hlist items))
        | .error e => .error e
      | _ => .ok (allocH h (.hlist []))
    else
      if rest = [] then lastLookupH h a k
      else
        match subscriptH h a k with
        | .ok (b, h1) => useKeyHF fuel rest b h1
        | .error e => .error e

def useKeyH (keys : List Key) (a : Nat) (h : Heap) : Except Err (Nat × Heap) :=
  useKeyHF (keys.length + 1) keys a h

def accessH (ks : String) (a : Nat) (h : Heap) : Except Err (Nat × Heap) :=
  useKeyH (parseKeystring ks) a h

def accessListH : List String → Nat → Heap → Except Err (List Nat × Heap)
  | [], _, h => .ok ([], h)
  | k :: ksr, a, h =>
    match accessH k a h with
    | .ok (c, h1) =>
      match accessListH ksr a h1 with
      | .ok (cs, h2) => .ok (c :: cs, h2)
      | .error e => .error e
    | .error e => .error e

def checkColsAuxH (h : Heap) (c0 : Nat) : List Nat → Except Err Unit
  | [] => .ok ()
  | c :: cs =>
    match nodeLenAt h c with
    | .ok n =>
      match nodeLenAt h c0 with
      | .ok n0 => if n = n0 then checkColsAuxH h c0 cs else .error .assertionError
      | .error e => .error e
    | .error e => .error e

def checkColsH (h : Heap) : List Nat → Except Err Unit
  | [] => .ok ()
  | c :: cs => checkColsAuxH h c (c :: cs)

/-- Heap-level `cols.index(col)` (`==` compares by value). -/
def colsIndexH (h : Heap) (cols : List Nat) (col : Nat) : Nat :=
  cols.findIdx (fun c => pyEq (readVal h c) (readVal h col))

def allocMany : Heap → List HNode → List Nat × Heap
  | h, [] => ([], h)
  | h, n :: ns =>
    let (a, h1) := allocH h n
    let (as1, h2) := allocMany h1 ns
    (a :: as1, h2)

def boolNode : Val → HNode
  | .vbool b => .hbool b
  | _ => .hnone

/-- The in-place rewrite `for i in range(len(col)): col[i] = map(...)`:
the membership list is computed against element `i`'s current value,
then a fresh list object is allocated and the column node's slot `i`
is redirected to it — the heap write that makes `tablefy` observable
to its caller. -/
def mutateColH (cj : Nat) (names : List Val) : Nat → List Nat → Heap → Except Err Heap
  | _, [], h => .ok h
  | i, ea :: rest, h =>
    match entryBools (readVal h ea) names with
    | .error e => .error e
    | .ok bs =>
      let (baddrs, h1) := allocMany h (bs.map boolNode)
      let (lb, h2) := allocH h1 (.hlist baddrs)
      match heapGet h2 cj with
      | .hlist cur => mutateColH cj names (i + 1) rest (heapSet h2 cj (.hlist (cur.set i lb)))
      | _ => .error .typeError

def expandStepH (cols : List Nat) (exp : List (Nat × List Val)) (j : Nat) (h : Heap) :
    Except Err (List (Nat × List Val) × Heap) :=
  let cj := cols.getD j 0
  match subscriptH h cj (.idx 0) with
  | .error e => .error e
  | .ok (e0, h1) =>
    if nodeIsIter (heapGet h1 e0) then
      match colItems (readVal h1 cj) with
      | .error e => .error e
      | .ok items =>
        let names := pySort (pyDedup items)
        let i := colsIndexH h1 cols cj
        match heapGet h1 cj with
        | .hlist elems =>
          match mutateColH cj names 0 elems h1 with
          | .ok h2 => .ok (exp ++ [(i, names)], h2)
          | .error e => .error e
        | _ => .error .typeError
    else .ok (exp, h1)

def expandColsFromH : Nat → Nat → List Nat → List (Nat × List Val) → Heap →
    Except Err (List (Nat × List Val) × Heap)
  | _, 0, _, exp, h => .ok (exp, h)
  | j, fuel + 1, cols, exp, h =>
    match expandStepH cols exp j h with
    | .ok (exp1, h1) => expandColsFromH (j + 1) fuel cols exp1 h1
    | .error e => .error e

def expandColsH (cols : List Nat) (h : Heap) : Except Err (List (Nat × List Val) × Heap) :=
  expandColsFromH 0 cols.length cols [] h

/-- Heap-level `tablefy`.  After the expansion loop no stage writes to
the heap, so the remaining stages reuse the pure pipeline on the
read-back column values. -/
def tablefyH (ks : String) (a : Nat) (expandListsToBool flattenLists : Bool) (h : Heap) :
    Except Err (List (List Val) × Heap) :=
  let keystrings := splitExprs ks
  let header0 : List Val := keystrings.map Val.vstr
  match accessListH keystrings a h with
  | .error e => .error e
  | .ok (cols, h1) =>
    match checkColsH h1 cols with
    | .error e => .error e
    | .ok _ =>
      match (if expandListsToBool then expandColsH cols h1
             else .ok (([] : List (Nat × List Val)), h1)) with
      | .error e => .error e
      | .ok (exp, h2) =>
        match prettifyHeader (applyExpansions header0 exp) with
        | .error e => .error e
        | .ok header =>
          match zipCols (cols.map (readVal h2)) with
          | .error e => .error e
          | .ok zipped =>
            let rows := header :: zipped
            .ok ((if flattenLists then flattenRows rows else rows), h2)

/-- Heap `h2` extends heap `h`: everything already allocated is
untouched and only fresh nodes were appended — i.e. the call did not
mutate any pre-existing object. -/
def HeapExtends (h h2 : Heap) : Prop := ∃ ext, h2 = h ++ ext

/-- The concrete input of the mutation counterexample: the structure
`vdict [("x", vlist [vlist [vint 1], vlist [vint 2]])]` laid out at
address 5, its inner lists at addresses 1 and 3. -/
def c10Heap : Heap :=
  [HNode.hint 1, HNode.hlist [0], HNode.hint 2, HNode.hlist [2],
   HNode.hlist [1, 3], HNode.hdict [("x", 4)]]

/-! ## Theorems -/

theorem dictLookup_eq_none {d : List (String × Val)} {k : String}
    (h : keyInDict (Key.str k) d = false) : dictLookup d k = none := by
  simp only [keyInDict, List.any_eq_false] at h
  unfold dictLookup
  rw [List.find?_eq_none.mpr]
  · rfl
  · intro p hp
    simpa using h p hp

theorem pyRstripColon_append (p : String) : pyRstripColon (p ++ ":") = pyRstripColon p := by
  unfold pyRstripColon
  have hd : (p ++ ":").data = p.data ++ [':'] := by
    rw [String.data_append]
  rw [hd, List.reverse_append]
  simp [List.dropWhile]

/-- C2: the claim says a wildcard applied to a non-iterable scalar
fails with a TypeError.  In fact `use_key`'s wildcard branch has no
case for scalars at all: `isinstance(container, dict)` and
`hasattr(container, '__iter__')` are both false (strings included, in
Python 2), so the loop body never runs and the empty `items` list is
returned.  Amended claim: for every non-iterable container and any
remaining segments, the wildcard silently yields the empty list. -/
theorem c2_wildcard_scalar_empty (rest : List Key) (c : Val) (h : isIter c = false) :
    useKey (Key.str "" :: rest) c = .ok (.vlist []) := by
  cases c <;> first | rfl | simp [isIter] at h

/-- C2 counterexample: `access(':', 5)` returns `[]`, not a TypeError. -/
theorem c2_counterexample :
    access ":" (Val.vint 5) = .ok (.vlist []) ∧
      access ":" (Val.vint 5) ≠ .error .typeError := by decide

theorem c2_witness :
    isIter (Val.vint 5) = false ∧ useKey [Key.str ""] (Val.vint 5) = .ok (.vlist []) :=
  ⟨by decide, c2_wildcard_scalar_empty [] (Val.vint 5) (by decide)⟩

/-- C3: the claim says a trailing wildcard returns the container's
elements as-is for mappings *and* for sequences.  Only the dict branch
of `use_key` has the `len(key)>1` guard; the sequence branch always
recurses with `key[1:]`, and an empty key list evaluates `key[0]`,
raising IndexError.  Amended claim: with a wildcard as the only
segment, a mapping yields its values in iteration order, a non-empty
sequence raises IndexError, and only the empty sequence yields the
empty list. -/
theorem c3_wildcard_last :
    (∀ d : List (String × Val),
      access ":" (Val.vdict d) = .ok (.vlist (d.map (fun p => p.2)))) ∧
    (∀ l : List Val, l ≠ [] → access ":" (Val.vlist l) = .error .indexError) ∧
    access ":" (Val.vlist []) = .ok (.vlist []) := by
  have hp : parseKeystring ":" = [Key.str ""] := by decide
  refine ⟨fun d => ?_, fun l hl => ?_, by decide⟩
  · show useKey (parseKeystring ":") (Val.vdict d) = _
    rw [hp]
    rfl
  · show useKey (parseKeystring ":") (Val.vlist l) = _
    rw [hp]
    cases l with
    | nil => exact absurd rfl hl
    | cons v vs => rfl

/-- C3 counterexample: a wildcard as last segment over a non-empty list
raises IndexError instead of returning the elements. -/
theorem c3_counterexample :
    access ":" (Val.vlist [Val.vint 1]) = .error .indexError := by decide

theorem c3_witness :
    access ":" (Val.vdict [("a", Val.vint 7)]) = .ok (.vlist [Val.vint 7]) ∧
      access ":" (Val.vlist [Val.vint 1, Val.vint 2]) = .error .indexError :=
  ⟨c3_wildcard_last.1 [("a", Val.vint 7)],
   c3_wildcard_last.2.1 [Val.vint 1, Val.vint 2] (by decide)⟩

/-- C4: the claim says an absent mid-path key is propagated as `None`
like an absent last segment.  In fact the mid-path branch of `use_key`
indexes unconditionally (`use_key(key[1:], container[key[0]])`), so an
absent key raises KeyError (and an out-of-range index IndexError); the
containment test exists only in the last-segment branch.  Amended
claim: an absent non-terminal key/index raises the lookup error. -/
theorem c4_midpath_raises :
    (∀ (d : List (String × Val)) (k : String) (k2 : Key) (rest : List Key),
      k ≠ "" → keyInDict (Key.str k) d = false →
      useKey (Key.str k :: k2 :: rest) (Val.vdict d) = .error .keyError) ∧
    (∀ (l : List Val) (n : Nat) (k2 : Key) (rest : List Key),
      l.length ≤ n →
      useKey (Key.idx n :: k2 :: rest) (Val.vlist l) = .error .indexError) := by
  constructor
  · intro d k k2 rest hk hkd
    have hsub : pySubscript (Val.vdict d) (Key.str k) = .error .keyError := by
      simp [pySubscript, dictLookup_eq_none hkd]
    simp [useKey, hk, hsub]
  · intro l n k2 rest hn
    have hsub : pySubscript (Val.vlist l) (Key.idx n) = .error .indexError := by
      simp [pySubscript, Nat.not_lt.mpr hn]
    simp [useKey, hsub]

/-- C4 counterexample: `access('a:b', vdict [("x", 1)])` raises
KeyError; the claim would have it resolve to `None`. -/
theorem c4_counterexample :
    access "a:b" (Val.vdict [("x", Val.vint 1)]) = .error .keyError := by decide

theorem c4_witness :
    useKey [Key.str "a", Key.str "b"] (Val.vdict [("x", Val.vint 1)]) = .error .keyError ∧
      useKey [Key.idx 3, Key.str "b"] (Val.vlist [Val.vint 0]) = .error .indexError :=
  ⟨c4_midpath_raises.1 [("x", Val.vint 1)] "a" (Key.str "b") [] (by decide) (by decide),
   c4_midpath_raises.2 [Val.vint 0] 3 (Key.str "b") [] (by decide)⟩

/-- C5: the claim says every failed last-segment lookup yields `None`.
That holds for a string key absent from a dict, for an out-of-range
index on a list, and for a string key on a list (Python 2 compares
`str < int` as False), and the claim's own fan-out example holds.  But
it is not true for every container: an integer index applied to a dict
passes the `hasattr(container,'__iter__') and key[0] < len(container)`
test (dicts have `__iter__`), so `container[key[0]]` is evaluated and
raises KeyError.  Amended claim: the failed lookups listed above yield
`None`, except that an integer index smaller than a mapping's size
raises KeyError. -/
theorem c5_last_segment_absent :
    (∀ (d : List (String × Val)) (k : String),
      k ≠ "" → keyInDict (Key.str k) d = false →
      useKey [Key.str k] (Val.vdict d) = .ok .vnone) ∧
    (∀ (l : List Val) (n : Nat), l.length ≤ n →
      useKey [Key.idx n] (Val.vlist l) = .ok .vnone) ∧
    (∀ (l : List Val) (k : String), k ≠ "" →
      useKey [Key.str k] (Val.vlist l) = .ok .vnone) ∧
    access ":x" (Val.vlist [Val.vdict [("x", Val.vint 1)], Val.vdict [("x", Val.vint 2)],
        Val.vdict []]) = .ok (.vlist [Val.vint 1, Val.vint 2, Val.vnone]) ∧
    (∀ (d : List (String × Val)) (n : Nat), n < d.length →
      useKey [Key.idx n] (Val.vdict d) = .error .keyError) := by
  refine ⟨fun d k hk hkd => ?_, fun l n hn => ?_, fun l k hk => ?_, by decide,
    fun d n hn => ?_⟩
  · simp [useKey, hk, lastLookup, hkd, keyLtLen]
  · simp [useKey, lastLookup, keyInDict, keyLtLen, Nat.not_lt.mpr hn]
  · simp [useKey, hk, lastLookup, keyInDict, keyLtLen]
  · simp [useKey, lastLookup, keyInDict, keyLtLen, hn, pySubscript, isIter]

/-- C5 counterexample: `access('0', vdict [("a", 1)])` raises KeyError
even though the lookup of key `0` fails (it is not a member); the claim
predicts `None`. -/
theorem c5_counterexample :
    access "0" (Val.vdict [("a", Val.vint 1)]) = .error .keyError := by decide

theorem c5_witness :
    useKey [Key.str "z"] (Val.vdict [("a", Val.vint 1)]) = .ok .vnone ∧
      useKey [Key.idx 5] (Val.vlist [Val.vint 1]) = .ok .vnone ∧
      useKey [Key.str "z"] (Val.vlist [Val.vint 1]) = .ok .vnone ∧
      useKey [Key.idx 0] (Val.vdict [("a", Val.vint 1)]) = .error .keyError :=
  ⟨c5_last_segment_absent.1 [("a", Val.vint 1)] "z" (by decide) (by decide),
   c5_last_segment_absent.2.1 [Val.vint 1] 5 (by decide),
   c5_last_segment_absent.2.2.1 [Val.vint 1] "z" (by decide),
   c5_last_segment_absent.2.2.2.2 [("a", Val.vint 1)] 0 (by decide)⟩

/-- C6: confirmed.  A trailing delimiter is stripped by
`keystring.rstrip(':')` before splitting, so `access(p + ':', c)`
equals `access(p, c)` for every path and container; an internal empty
segment survives the split (`"a::b"` parses to key, wildcard, key);
a non-empty all-digit segment is coerced to an integer index and every
other segment (including the empty wildcard) stays a string key. -/
theorem c6_trailing_delimiter :
    (∀ (p : String) (c : Val), access (p ++ ":") c = access p c) ∧
    parseKeystring "a::b" = [Key.str "a", Key.str "", Key.str "b"] ∧
    (∀ s : String, s ≠ "" → s.data.all Char.isDigit = true →
      parseSeg s = Key.idx (digitsToNat s)) ∧
    (∀ s : String, s.data.all Char.isDigit = false → parseSeg s = Key.str s) ∧
    parseSeg "" = Key.str "" := by
  refine ⟨fun p c => ?_, by decide, fun s h1 h2 => ?_, fun s h => ?_, by decide⟩
  · unfold access parseKeystring
    rw [pyRstripColon_append]
  · simp [parseSeg, h1, h2]
  · simp [parseSeg, h]

theorem c6_witness :
    access ("a" ++ ":") (Val.vdict [("a", Val.vint 3)]) =
        access "a" (Val.vdict [("a", Val.vint 3)]) ∧
      parseSeg "12" = Key.idx (digitsToNat "12") ∧
      parseSeg "a1" = Key.str "a1" :=
  ⟨c6_trailing_delimiter.1 "a" (Val.vdict [("a", Val.vint 3)]),
   c6_trailing_delimiter.2.2.1 "12" (by decide) (by decide),
   c6_trailing_delimiter.2.2.2.1 "a1" (by decide)⟩

theorem checkColsAux_error (c0 : Val) (n0 : Nat) (h0 : pyLen c0 = .ok n0) :
    ∀ l : List Val, (∀ c ∈ l, ∃ n, pyLen c = .ok n) →
    (∃ c ∈ l, pyLen c ≠ .ok n0) → checkColsAux c0 l = .error .assertionError := by
  intro l
  induction l with
  | nil => intro _ h; simp at h
  | cons c cs ih =>
    intro hall hex
    obtain ⟨n, hn⟩ := hall c (by simp)
    by_cases hcn : n = n0
    · subst hcn
      have hex' : ∃ c2 ∈ cs, pyLen c2 ≠ .ok n := by
        obtain ⟨c2, hc2, hne⟩ := hex
        rcases List.mem_cons.mp hc2 with rfl | hin
        · exact absurd hn hne
        · exact ⟨c2, hin, hne⟩
      simpa [checkColsAux, hn, h0] using ih (fun c2 hc2 => hall c2 (by simp [hc2])) hex'
    · simp [checkColsAux, hn, h0, hcn]

theorem checkColsAux_ok (c0 : Val) (n0 : Nat) (h0 : pyLen c0 = .ok n0) :
    ∀ l : List Val, (∀ c ∈ l, pyLen c = .ok n0) → checkColsAux c0 l = .ok () := by
  intro l
  induction l with
  | nil => intro _; rfl
  | cons c cs ih =>
    intro hall
    simpa [checkColsAux, hall c (by simp), h0] using ih (fun c2 hc2 => hall c2 (by simp [hc2]))

theorem prettifyStr_ok_of_hasAlpha {s : String} (h : hasAlpha s = true) :
    ∃ t, prettifyStr s = .ok t := by
  unfold prettifyStr
  cases hd : s.data.dropWhile (fun c => !c.isAlpha) with
  | nil =>
    exfalso
    rw [List.dropWhile_eq_nil_iff] at hd
    unfold hasAlpha at h
    rw [List.any_eq_true] at h
    obtain ⟨c, hc, hca⟩ := h
    have hcontra := hd c hc
    simp only [Bool.not_eq_true'] at hcontra
    rw [hca] at hcontra
    cases hcontra
  | cons c cs => exact ⟨_, rfl⟩

theorem prettifyStr_error_of_no_alpha {s : String} (h : hasAlpha s = false) :
    prettifyStr s = .error .attributeError := by
  unfold prettifyStr
  have hd : s.data.dropWhile (fun c => !c.isAlpha) = [] := by
    rw [List.dropWhile_eq_nil_iff]
    intro c hc
    unfold hasAlpha at h
    rw [List.any_eq_false] at h
    simpa using h c hc
  rw [hd]

theorem prettifyHeader_error (l : List String) :
    (∃ s ∈ l, hasAlpha s = false) →
    prettifyHeader (l.map Val.vstr) = .error .attributeError := by
  induction l with
  | nil => intro h; simp at h
  | cons s ss ih =>
    intro h
    by_cases ha : hasAlpha s = true
    · obtain ⟨t, ht⟩ := prettifyStr_ok_of_hasAlpha ha
      have hex : ∃ s2 ∈ ss, hasAlpha s2 = false := by
        obtain ⟨s2, hs2, hfa⟩ := h
        rcases List.mem_cons.mp hs2 with rfl | hin
        · rw [ha] at hfa; cases hfa
        · exact ⟨s2, hin, hfa⟩
      simp [prettifyHeader, ht, ih hex]
    · have ha2 : hasAlpha s = false := by simpa using ha
      simp [prettifyHeader, prettifyStr_error_of_no_alpha ha2]

/-- C8: confirmed.  Whenever the per-expression columns all carry a
length but the lengths are not all equal, the assertion loop
`for col in cols: assert len(col)==len(cols[0])` fails with
AssertionError, before expansion, header update, transposition and
flattening (the conclusion holds for every combination of the
`expand_lists_to_bool` and `flatten_lists` flags, so no later stage can
pad or truncate the columns). -/
theorem c8_misaligned_columns (ks : String) (struct : Val) (e f : Bool) (cols : List Val)
    (hcols : getCols ks struct = .ok cols)
    (hlen : ∀ c ∈ cols, ∃ n, pyLen c = .ok n)
    (hne : ∃ c ∈ cols, pyLen c ≠ pyLen (cols.headD Val.vnone)) :
    tablefy ks struct e f = .error .assertionError := by
  cases cols with
  | nil => simp at hne
  | cons c0 cs =>
    obtain ⟨n0, hn0⟩ := hlen c0 (by simp)
    have hchk : checkCols (c0 :: cs) = .error .assertionError := by
      apply checkColsAux_error c0 n0 hn0
      · exact hlen
      · obtain ⟨c, hc, hcne⟩ := hne
        refine ⟨c, hc, ?_⟩
        simpa [hn0] using hcne
    simp [tablefy, hcols, hchk]

theorem c8_witness :
    tablefy "a, b" (Val.vdict [("a", Val.vlist [Val.vint 1]),
        ("b", Val.vlist [Val.vint 1, Val.vint 2])]) false true = .error .assertionError := by
  apply c8_misaligned_columns _ _ _ _
      [Val.vlist [Val.vint 1], Val.vlist [Val.vint 1, Val.vint 2]]
  · decide
  · intro c hc
    rcases List.mem_cons.mp hc with rfl | hc2
    · exact ⟨1, rfl⟩
    · rcases List.mem_cons.mp hc2 with rfl | hc3
      · exact ⟨2, rfl⟩
      · simp at hc3
  · exact ⟨Val.vlist [Val.vint 1, Val.vint 2], by simp, by decide⟩

/-- C9: confirmed.  When `tablefy` reaches header prettification with a
retained (not expansion-replaced) keystring that contains no ASCII
letter, `re.search(r'([a-zA-Z].*)', h)` matches nothing and `.group(1)`
raises AttributeError, so `tablefy` fails.  Stated with
`expand_lists_to_bool` disabled, the situation in which no header entry
is replaced; the hypotheses (columns resolve, equal lengths) put the
run at the prettification stage. -/
theorem c9_header_requires_letter (ks : String) (struct : Val) (f : Bool)
    (cols : List Val) (n : Nat)
    (hcols : getCols ks struct = .ok cols)
    (hlen : ∀ c ∈ cols, pyLen c = .ok n)
    (hbad : ∃ s ∈ splitExprs ks, hasAlpha s = false) :
    tablefy ks struct false f = .error .attributeError := by
  have hchk : checkCols cols = .ok () := by
    cases cols with
    | nil => rfl
    | cons c0 cs => exact checkColsAux_ok c0 n (hlen c0 (by simp)) _ hlen
  have hpretty : prettifyHeader ((splitExprs ks).map Val.vstr) = .error .attributeError :=
    prettifyHeader_error _ hbad
  simp [tablefy, hcols, hchk, applyExpansions, hpretty]

theorem c9_witness :
    tablefy "0:1" (Val.vlist [Val.vlist [Val.vint 9, Val.vstr "ab"]]) false true =
      .error .attributeError := by
  apply c9_header_requires_letter _ _ _ [Val.vstr "ab"] 2
  · decide
  · intro c hc
    rcases List.mem_cons.mp hc with rfl | hc2
    · rfl
    · simp at hc2
  · exact ⟨"0:1", by decide, by decide⟩

theorem collectResults_ok_length :
    ∀ {xs : List (Except Err Val)} {vs : List Val},
    collectResults xs = .ok vs → vs.length = xs.length := by
  intro xs
  induction xs with
  | nil => intro vs h; cases h; rfl
  | cons x rest ih =>
    intro vs h
    cases x with
    | error e => cases h
    | ok v =>
      unfold collectResults at h
      cases hr : collectResults rest with
      | error e => rw [hr] at h; cases h
      | ok rs =>
        rw [hr] at h
        cases h
        simp [ih hr]

theorem accessList_ok_length :
    ∀ {ks : List String} {s : Val} {cols : List Val},
    accessList ks s = .ok cols → cols.length = ks.length := by
  intro ks
  induction ks with
  | nil => intro s cols h; cases h; rfl
  | cons k rest ih =>
    intro s cols h
    unfold accessList at h
    cases ha : access k s with
    | error e => rw [ha] at h; cases h
    | ok c =>
      rw [ha] at h
      cases hr : accessList rest s with
      | error e => rw [hr] at h; cases h
      | ok cs =>
        rw [hr] at h
        cases h
        simp [ih hr]

theorem accessList_cons_inv {k : String} {ks : List String} {s : Val} {cols : List Val}
    (h : accessList (k :: ks) s = .ok cols) :
    ∃ c0 cs, cols = c0 :: cs ∧ access k s = .ok c0 ∧ accessList ks s = .ok cs := by
  unfold accessList at h
  cases ha : access k s with
  | error e => rw [ha] at h; cases h
  | ok c =>
    rw [ha] at h
    cases hr : accessList ks s with
    | error e => rw [hr] at h; cases h
    | ok cs =>
      rw [hr] at h
      cases h
      exact ⟨c, cs, rfl, rfl, rfl⟩

theorem splitChars_ne_nil (sep : Char) : ∀ l : List Char, splitChars sep l ≠ [] := by
  intro l
  induction l with
  | nil => simp [splitChars]
  | cons c cs ih =>
    unfold splitChars
    by_cases hc : c = sep
    · simp [hc]
    · simp only [hc, if_false]
      cases hg : splitChars sep cs with
      | nil => exact absurd hg ih
      | cons g gs => simp

theorem splitExprs_ne_nil (ks : String) : splitExprs ks ≠ [] := by
  unfold splitExprs pySplit
  intro h
  rw [List.map_eq_nil_iff, List.map_eq_nil_iff] at h
  exact splitChars_ne_nil ',' ks.data h

theorem checkColsAux_ok_inv (c0 : Val) :
    ∀ l : List Val, checkColsAux c0 l = .ok () →
    ∀ c ∈ l, ∃ n0, pyLen c0 = .ok n0 ∧ pyLen c = .ok n0 := by
  intro l
  induction l with
  | nil => intro _ c hc; simp at hc
  | cons c1 cs ih =>
    intro h c hc
    cases hn : pyLen c1 with
    | error e => simp [checkColsAux, hn] at h
    | ok n =>
      cases hn0 : pyLen c0 with
      | error e => simp [checkColsAux, hn, hn0] at h
      | ok n0 =>
        simp only [checkColsAux, hn, hn0] at h
        by_cases hne : n = n0
        · rw [if_pos hne] at h
          rcases List.mem_cons.mp hc with rfl | hin
          · exact ⟨n0, rfl, by rw [hn, hne]⟩
          · obtain ⟨m, hm1, hm2⟩ := ih h c hin
            rw [hn0] at hm1
            exact ⟨m, hm1, hm2⟩
        · rw [if_neg hne] at h
          cases h

theorem checkCols_ok_all {cols : List Val} {c0 : Val} {cs : List Val}
    (hc : cols = c0 :: cs) (h : checkCols cols = .ok ()) :
    ∃ n0, pyLen c0 = .ok n0 ∧ ∀ c ∈ cols, pyLen c = .ok n0 := by
  subst hc
  unfold checkCols at h
  have hall := checkColsAux_ok_inv c0 _ h
  obtain ⟨n0, hn0, _⟩ := hall c0 (by simp)
  refine ⟨n0, hn0, ?_⟩
  intro c hcmem
  obtain ⟨n1, hn1, hcn⟩ := hall c hcmem
  rw [hn0] at hn1
  cases hn1
  exact hcn

theorem pyIter_of_pyLen {c : Val} {n : Nat} (h : pyLen c = .ok n) :
    ∃ l, pyIter c = .ok l ∧ l.length = n := by
  cases c with
  | vstr s =>
    refine ⟨_, rfl, ?_⟩
    simpa [pyLen] using h
  | vlist l =>
    refine ⟨_, rfl, ?_⟩
    simpa [pyLen] using h
  | vdict d =>
    refine ⟨_, rfl, ?_⟩
    simpa [pyLen] using h
  | vint n2 => simp [pyLen] at h
  | vbool b => simp [pyLen] at h
  | vnone => simp [pyLen] at h

theorem pyIterAll_ok {n : Nat} :
    ∀ {cols : List Val}, (∀ c ∈ cols, ∃ l, pyIter c = .ok l ∧ l.length = n) →
    ∃ ls, pyIterAll cols = .ok ls ∧ ls.length = cols.length ∧ ∀ l ∈ ls, l.length = n := by
  intro cols
  induction cols with
  | nil => intro _; exact ⟨[], rfl, rfl, by simp⟩
  | cons c cs ih =>
    intro hall
    obtain ⟨l, hl, hln⟩ := hall c (by simp)
    obtain ⟨ls, hls, hlen, hn⟩ := ih (fun c2 hc2 => hall c2 (by simp [hc2]))
    refine ⟨l :: ls, ?_, by simp [hlen], ?_⟩
    · unfold pyIterAll
      rw [hl, hls]
    · intro l2 hl2
      rcases List.mem_cons.mp hl2 with rfl | hin
      · exact hln
      · exact hn l2 hin

theorem foldl_min_const {n : Nat} : ∀ ms : List Nat, (∀ m ∈ ms, m = n) → ms.foldl min n = n := by
  intro ms
  induction ms with
  | nil => intro _; rfl
  | cons m rest ih =>
    intro hall
    have hm : m = n := hall m (by simp)
    subst hm
    simp only [List.foldl_cons, Nat.min_self]
    exact ih (fun m2 hm2 => hall m2 (by simp [hm2]))

theorem minLen_const {ls : List (List Val)} {n : Nat}
    (hne : ls ≠ []) (hall : ∀ l ∈ ls, l.length = n) : minLen ls = n := by
  cases ls with
  | nil => exact absurd rfl hne
  | cons l rest =>
    unfold minLen
    simp only [List.map_cons]
    have hl : l.length = n := hall l (by simp)
    rw [hl]
    exact foldl_min_const _ (by
      intro m hm
      rw [List.mem_map] at hm
      obtain ⟨l2, hl2, rfl⟩ := hm
      exact hall l2 (by simp [hl2]))

theorem useKey_wild_list_length {rest : List Key} {records : List Val} {c0 : Val}
    (h : useKey (Key.str "" :: rest) (Val.vlist records) = .ok c0) :
    ∃ items, c0 = .vlist items ∧ items.length = records.length := by
  cases hc : collectResults (records.map (fun v => useKey rest v)) with
  | error e => simp [useKey, hc] at h
  | ok items =>
    simp only [useKey, hc, if_pos rfl] at h
    refine ⟨items, ?_, ?_⟩
    · simpa using h.symm
    · rw [collectResults_ok_length hc]
      simp

theorem prettifyHeader_ok_length :
    ∀ {hs hs2 : List Val}, prettifyHeader hs = .ok hs2 → hs2.length = hs.length := by
  intro hs
  induction hs with
  | nil => intro hs2 h; cases h; rfl
  | cons h0 rest ih =>
    intro hs2 h
    cases h0 with
    | vstr s =>
      cases hp : prettifyStr s with
      | error e => simp [prettifyHeader, hp] at h
      | ok t =>
        cases hr : prettifyHeader rest with
        | error e => simp [prettifyHeader, hp, hr] at h
        | ok r =>
          simp only [prettifyHeader, hp, hr, Except.ok.injEq] at h
          rw [← h]
          simp [ih hr]
    | vint n =>
      cases hr : prettifyHeader rest with
      | error e => simp [prettifyHeader, hr] at h
      | ok r =>
        simp only [prettifyHeader, hr, Except.ok.injEq] at h
        rw [← h]
        simp [ih hr]
    | vbool b =>
      cases hr : prettifyHeader rest with
      | error e => simp [prettifyHeader, hr] at h
      | ok r =>
        simp only [prettifyHeader, hr, Except.ok.injEq] at h
        rw [← h]
        simp [ih hr]
    | vnone =>
      cases hr : prettifyHeader rest with
      | error e => simp [prettifyHeader, hr] at h
      | ok r =>
        simp only [prettifyHeader, hr, Except.ok.injEq] at h
        rw [← h]
        simp [ih hr]
    | vlist l =>
      cases hr : prettifyHeader rest with
      | error e => simp [prettifyHeader, hr] at h
      | ok r =>
        simp only [prettifyHeader, hr, Except.ok.injEq] at h
        rw [← h]
        simp [ih hr]
    | vdict d =>
      cases hr : prettifyHeader rest with
      | error e => simp [prettifyHeader, hr] at h
      | ok r =>
        simp only [prettifyHeader, hr, Except.ok.injEq] at h
        rw [← h]
        simp [ih hr]

theorem prettifyHeader_all_vstr :
    ∀ {l : List String} {hs2 : List Val}, prettifyHeader (l.map Val.vstr) = .ok hs2 →
    ∀ h2 ∈ hs2, ∃ s, h2 = Val.vstr s := by
  intro l
  induction l with
  | nil => intro hs2 h h2 hmem; cases h; simp at hmem
  | cons s rest ih =>
    intro hs2 h h2 hmem
    simp only [List.map_cons] at h
    cases hp : prettifyStr s with
    | error e => simp [prettifyHeader, hp] at h
    | ok t =>
      cases hr : prettifyHeader (rest.map Val.vstr) with
      | error e => simp [prettifyHeader, hp, hr] at h
      | ok r =>
        simp only [prettifyHeader, hp, hr, Except.ok.injEq] at h
        rw [← h] at hmem
        rcases List.mem_cons.mp hmem with rfl | hin
        · exact ⟨t, rfl⟩
        · exact ih hr h2 hin

theorem flattenCell_scalar {c : Val} (h : isIter c = false) : flattenCell c = [c] := by
  cases c <;> first | rfl | simp [isIter] at h

theorem flattenRow_scalar : ∀ {row : List Val}, (∀ c ∈ row, isIter c = false) →
    flattenRow row = row := by
  intro row
  induction row with
  | nil => intro _; rfl
  | cons c cs ih =>
    intro hall
    unfold flattenRow at *
    simp only [List.map_cons, List.flatten_cons]
    rw [flattenCell_scalar (hall c (by simp)), ih (fun c2 hc2 => hall c2 (by simp [hc2]))]
    rfl

theorem pyIterAll_mem :
    ∀ {cols : List Val} {ls : List (List Val)}, pyIterAll cols = .ok ls →
    ∀ l ∈ ls, ∃ c ∈ cols, pyIter c = .ok l := by
  intro cols
  induction cols with
  | nil => intro ls h l hl; cases h; simp at hl
  | cons c cs ih =>
    intro ls h l hl
    cases hc : pyIter c with
    | error e => simp [pyIterAll, hc] at h
    | ok l0 =>
      cases hr : pyIterAll cs with
      | error e => simp [pyIterAll, hc, hr] at h
      | ok ls0 =>
        simp only [pyIterAll, hc, hr, Except.ok.injEq] at h
        rw [← h] at hl
        rcases List.mem_cons.mp hl with rfl | hin
        · exact ⟨c, by simp, hc⟩
        · obtain ⟨c2, hc2, hpi⟩ := ih hr l hin
          exact ⟨c2, by simp [hc2], hpi⟩

theorem tablefy_noexpand_inv {ks : String} {struct : Val} {f : Bool}
    {rows : List (List Val)} {cols : List Val}
    (hcols : getCols ks struct = .ok cols)
    (htab : tablefy ks struct false f = .ok rows) :
    ∃ header zipped, checkCols cols = .ok () ∧
      prettifyHeader ((splitExprs ks).map Val.vstr) = .ok header ∧
      zipCols cols = .ok zipped ∧
      rows = (if f then flattenRows (header :: zipped) else header :: zipped) := by
  cases hchk : checkCols cols with
  | error e => simp [tablefy, hcols, hchk] at htab
  | ok u =>
    cases u
    cases hpr : prettifyHeader ((splitExprs ks).map Val.vstr) with
    | error e => simp [tablefy, hcols, hchk, applyExpansions, hpr] at htab
    | ok header =>
      cases hz : zipCols cols with
      | error e => simp [tablefy, hcols, hchk, applyExpansions, hpr, hz] at htab
      | ok zipped =>
        refine ⟨header, zipped, rfl, rfl, rfl, ?_⟩
        simp only [tablefy, hcols, hchk, applyExpansions, hpr, hz, Except.ok.injEq,
          Bool.false_eq_true, if_false] at htab
        exact htab.symm

/-- C1: the claim promises, for every expression string, a header plus
exactly N data rows with equal cell count after flattening "for any mix
of scalar-valued and list-valued columns".  The row-count part holds
when the first expression fans out over the record sequence (a wildcard
over a list yields one entry per element), but the equal-cell-count
part is false for list-valued columns: without multi-hot expansion a
cell's sub-list is spliced as-is, so entries of different widths give
rows of different lengths (see the counterexample).  Amended claim:
when `tablefy` (expansion off, flattening on) returns and the first
expression begins with a wildcard, the table is one header row plus
exactly N data rows; and when every column iterates to non-iterable
(scalar) cells, every row additionally has exactly one cell per
expression. -/
theorem c1_rows_shape (ks : String) (records : List Val) (cols : List Val)
    (rows : List (List Val))
    (hcols : getCols ks (Val.vlist records) = .ok cols)
    (hwild : ∃ r, parseKeystring ((splitExprs ks).headD "") = Key.str "" :: r)
    (htab : tablefy ks (Val.vlist records) false true = .ok rows) :
    rows.length = records.length + 1 ∧
    ((∀ c ∈ cols, ∃ l, pyIter c = .ok l ∧ ∀ x ∈ l, isIter x = false) →
      ∀ row ∈ rows, row.length = (splitExprs ks).length) := by
  obtain ⟨header, zipped, hchk, hpr, hz, hrows⟩ := tablefy_noexpand_inv hcols htab
  rw [if_pos rfl] at hrows
  obtain ⟨s0, ss, hsplit⟩ : ∃ s0 ss, splitExprs ks = s0 :: ss := by
    cases hsp : splitExprs ks with
    | nil => exact absurd hsp (splitExprs_ne_nil ks)
    | cons a b => exact ⟨a, b, rfl⟩
  have hgc : accessList (s0 :: ss) (Val.vlist records) = .ok cols := by
    rw [← hsplit]
    exact hcols
  obtain ⟨c0, cs2, hcolseq, hacc0, _⟩ := accessList_cons_inv hgc
  obtain ⟨r, hr⟩ := hwild
  rw [hsplit] at hr
  simp only [List.headD_cons] at hr
  have hacc0' : useKey (Key.str "" :: r) (Val.vlist records) = .ok c0 := by
    have hx : access s0 (Val.vlist records) = .ok c0 := hacc0
    unfold access at hx
    rw [hr] at hx
    exact hx
  obtain ⟨items0, hc0eq, hlen0⟩ := useKey_wild_list_length hacc0'
  obtain ⟨n0, hn0, hall⟩ := checkCols_ok_all hcolseq hchk
  have hn0' : n0 = records.length := by
    rw [hc0eq] at hn0
    simp only [pyLen, Except.ok.injEq] at hn0
    rw [← hn0, hlen0]
  subst hn0'
  have hiter : ∀ c ∈ cols, ∃ l, pyIter c = .ok l ∧ l.length = records.length := by
    intro c hcm
    exact pyIter_of_pyLen (hall c hcm)
  obtain ⟨ls, hls, hlslen, hlsn⟩ := pyIterAll_ok hiter
  have hz2 : zipCols cols =
      .ok ((List.range (minLen ls)).map (fun r2 => ls.map (fun l => l.getD r2 Val.vnone))) := by
    simp [zipCols, hls]
  rw [hz] at hz2
  have hzip : zipped = (List.range (minLen ls)).map
      (fun r2 => ls.map (fun l => l.getD r2 Val.vnone)) := by
    simpa using hz2
  have hlsne : ls ≠ [] := by
    intro hnil
    rw [hnil] at hlslen
    rw [hcolseq] at hlslen
    simp at hlslen
  have hminl : minLen ls = records.length := minLen_const hlsne hlsn
  have hziplen : zipped.length = records.length := by
    rw [hzip, hminl]
    simp
  constructor
  · rw [hrows]
    simp [flattenRows, hziplen]
  · intro hscalar row hrow
    have hhl : header.length = (splitExprs ks).length := by
      have hx := prettifyHeader_ok_length hpr
      simpa using hx
    have hhstr := prettifyHeader_all_vstr hpr
    rw [hrows] at hrow
    unfold flattenRows at hrow
    rw [List.mem_map] at hrow
    obtain ⟨row0, hrow0mem, rfl⟩ := hrow
    rcases List.mem_cons.mp hrow0mem with rfl | hzmem
    · rw [flattenRow_scalar]
      · exact hhl
      · intro c hcm
        obtain ⟨s, rfl⟩ := hhstr c hcm
        rfl
    · rw [hzip] at hzmem
      rw [List.mem_map] at hzmem
      obtain ⟨r2, hr2mem, rfl⟩ := hzmem
      rw [List.mem_range, hminl] at hr2mem
      rw [flattenRow_scalar]
      · rw [List.length_map, hlslen, hsplit]
        exact accessList_ok_length hgc
      · intro c hcm
        rw [List.mem_map] at hcm
        obtain ⟨l, hlmem, rfl⟩ := hcm
        have hllen : l.length = records.length := hlsn l hlmem
        have hr2' : r2 < l.length := by
          rw [hllen]
          exact hr2mem
        obtain ⟨c2, hc2mem, hpi⟩ := pyIterAll_mem hls l hlmem
        obtain ⟨l2, hl2, hsc⟩ := hscalar c2 hc2mem
        rw [hpi] at hl2
        have hleq : l2 = l := by simpa using hl2.symm
        rw [hleq] at hsc
        rw [List.getD_eq_getElem l Val.vnone hr2']
        exact hsc _ (List.getElem_mem hr2')

/-- C1 counterexample: with flattening on (and no expansion), a
list-valued column whose entries have different widths produces rows of
unequal cell count — here lengths 1 (header), 2 and 1 — refuting the
equal-cell-count part of the claim. -/
theorem c1_counterexample :
    tablefy ":x" (Val.vlist [Val.vdict [("x", Val.vlist [Val.vint 1, Val.vint 2])],
        Val.vdict [("x", Val.vlist [Val.vint 1])]]) false true =
      .ok [[Val.vstr "x"], [Val.vint 1, Val.vint 2], [Val.vint 1]] ∧
    ([[Val.vstr "x"], [Val.vint 1, Val.vint 2], [Val.vint 1]] : List (List Val)).map
      List.length = [1, 2, 1] := by decide

theorem c1_witness :
    ([[Val.vstr "x"], [Val.vint 1], [Val.vint 2]] : List (List Val)).length =
      ([Val.vdict [("x", Val.vint 1)], Val.vdict [("x", Val.vint 2)]] : List Val).length + 1 ∧
    ([Val.vstr "x"] : List Val).length = (splitExprs ":x").length := by
  have h := c1_rows_shape ":x" [Val.vdict [("x", Val.vint 1)], Val.vdict [("x", Val.vint 2)]]
      [Val.vlist [Val.vint 1, Val.vint 2]] [[Val.vstr "x"], [Val.vint 1], [Val.vint 2]]
      (by decide) ⟨[Key.str "x"], by decide⟩ (by decide)
  refine ⟨h.1, h.2 ?_ [Val.vstr "x"] (by simp)⟩
  intro c hc
  rcases List.mem_cons.mp hc with rfl | hc2
  · exact ⟨[Val.vint 1, Val.vint 2], rfl, by decide⟩
  · simp at hc2

theorem cmpNat_self (a : Nat) : cmpNat a a = .eq := by simp [cmpNat]

theorem cmpInt_self (a : Int) : cmpInt a a = .eq := by simp [cmpInt]

theorem cmpChars_self : ∀ l : List Char, cmpChars l l = .eq := by
  intro l
  induction l with
  | nil => rfl
  | cons c cs ih => simp [cmpChars, cmpNat_self, ih]

mutual

theorem pyCmp_refl : ∀ v : Val, pyCmp v v = .eq
  | .vstr s => by
    rw [show pyCmp (.vstr s) (.vstr s) = cmpChars s.data s.data from rfl]
    exact cmpChars_self s.data
  | .vint n => by
    rw [show pyCmp (.vint n) (.vint n) = cmpInt n n from rfl]
    exact cmpInt_self n
  | .vbool b => by
    rw [show pyCmp (.vbool b) (.vbool b) = cmpInt (if b then 1 else 0) (if b then 1 else 0)
      from rfl]
    exact cmpInt_self _
  | .vnone => rfl
  | .vlist l => by
    rw [show pyCmp (.vlist l) (.vlist l) = pyCmpList l l from rfl]
    exact pyCmpList_refl l
  | .vdict d => by
    rw [show pyCmp (.vdict d) (.vdict d) =
      (match cmpNat d.length d.length with
        | .eq => pyCmpPairs d d
        | o => o) from rfl, cmpNat_self]
    exact pyCmpPairs_refl d

theorem pyCmpList_refl : ∀ l : List Val, pyCmpList l l = .eq
  | [] => rfl
  | v :: vs => by
    rw [show pyCmpList (v :: vs) (v :: vs) =
      (match pyCmp v v with
        | .eq => pyCmpList vs vs
        | o => o) from rfl, pyCmp_refl v]
    exact pyCmpList_refl vs

theorem pyCmpPairs_refl : ∀ d : List (String × Val), pyCmpPairs d d = .eq
  | [] => rfl
  | (k, v) :: rest => by
    rw [show pyCmpPairs ((k, v) :: rest) ((k, v) :: rest) =
      (match cmpChars k.data k.data with
        | .eq =>
          match pyCmp v v with
          | .eq => pyCmpPairs rest rest
          | o => o
        | o => o) from rfl, cmpChars_self, pyCmp_refl v]
    exact pyCmpPairs_refl rest

end

theorem pyEq_refl (v : Val) : pyEq v v = true := by simp [pyEq, pyCmp_refl]

theorem entryBools_vlist (l : List Val) : ∀ names : List Val,
    entryBools (Val.vlist l) names =
      .ok (names.map (fun x => Val.vbool (pyMem x (Val.vlist l)))) := by
  intro names
  induction names with
  | nil => rfl
  | cons x xs ih => simp [entryBools, pyIn, pyMem, ih]

theorem expandEntries_vlists : ∀ {col : List Val} (names : List Val),
    (∀ e ∈ col, ∃ l, e = Val.vlist l) →
    expandEntries names col =
      .ok (col.map (fun e => Val.vlist (names.map (fun v => Val.vbool (pyMem v e))))) := by
  intro col
  induction col with
  | nil => intro names _; rfl
  | cons e es ih =>
    intro names hall
    obtain ⟨l, rfl⟩ := hall e (by simp)
    simp [expandEntries, entryBools_vlist, ih names (fun e2 he2 => hall e2 (by simp [he2]))]

theorem range_map_getD {α : Type} (d : α) : ∀ l : List α,
    (List.range l.length).map (fun r => l.getD r d) = l := by
  intro l
  induction l with
  | nil => rfl
  | cons a t ih =>
    rw [List.length_cons, List.range_succ_eq_map]
    simp only [List.map_cons, List.getD_cons_zero, List.map_map]
    have hfe : ((fun r => (a :: t).getD r d) ∘ Nat.succ) = (fun r => t.getD r d) := by
      funext r
      simp
    rw [hfe, ih]

/-- C7: the claim says every column whose first entry is iterable has
its data replaced by membership booleans *and its header replaced by
the sorted value list*.  The data part behaves as claimed, but the
header is updated at `cols.index(col)` — the first column *currently*
value-equal to `col` — so with duplicated columns whose expansion is a
fixed point, the second column's header entry is never replaced (see
the counterexample).  Amended claim, proved here for a
single-expression call (where no duplicate can exist): the column
turns into one boolean column per distinct value in sorted order, cell
(r, v) is the membership of v in record r's entry, and the header
becomes the sorted value list. -/
theorem c7_expand_single (ks : String) (struct : Val) (col : List Val) (items : List Val)
    (hone : (splitExprs ks).length = 1)
    (hcols : getCols ks struct = .ok [Val.vlist col])
    (hnz : col ≠ [])
    (hvl : ∀ e ∈ col, ∃ l, e = Val.vlist l)
    (hitems : colItems (Val.vlist col) = .ok items) :
    tablefy ks struct true true =
      .ok (pySort (pyDedup items) ::
        col.map (fun e => (pySort (pyDedup items)).map (fun v => Val.vbool (pyMem v e)))) := by
  obtain ⟨s0, hsplit⟩ : ∃ s0, splitExprs ks = [s0] := by
    cases hsp : splitExprs ks with
    | nil => rw [hsp] at hone; simp at hone
    | cons a b =>
      rw [hsp] at hone
      have hb : b.length = 0 := by
        simp only [List.length_cons] at hone
        omega
      rw [List.length_eq_zero] at hb
      exact ⟨a, by rw [hb]⟩
  obtain ⟨e0, es, rfl⟩ : ∃ e0 es, col = e0 :: es := by
    cases col with
    | nil => exact absurd rfl hnz
    | cons a b => exact ⟨a, b, rfl⟩
  obtain ⟨l0, he0⟩ := hvl e0 (by simp)
  have hchk : checkCols [Val.vlist (e0 :: es)] = .ok () := by
    simp [checkCols, checkColsAux, pyLen]
  have hsub : pySubscript (Val.vlist (e0 :: es)) (Key.idx 0) = .ok e0 := by
    simp [pySubscript]
  have hiter0 : isIter e0 = true := by
    rw [he0]
    rfl
  have hidx : colsIndex [Val.vlist (e0 :: es)] (Val.vlist (e0 :: es)) = 0 := by
    simp [colsIndex, List.findIdx, List.findIdx.go, pyEq_refl]
  have hee := @expandEntries_vlists (e0 :: es) (pySort (pyDedup items)) hvl
  have hstep : expandStep [Val.vlist (e0 :: es)] [] 0 =
      .ok ([Val.vlist ((e0 :: es).map (fun e =>
          Val.vlist ((pySort (pyDedup items)).map (fun v => Val.vbool (pyMem v e)))))],
        [(0, pySort (pyDedup items))]) := by
    simp [expandStep, hsub, hiter0, hitems, hidx, hee]
  have hexp : expandCols [Val.vlist (e0 :: es)] =
      .ok ([Val.vlist ((e0 :: es).map (fun e =>
          Val.vlist ((pySort (pyDedup items)).map (fun v => Val.vbool (pyMem v e)))))],
        [(0, pySort (pyDedup items))]) := by
    simp [expandCols, expandColsFrom, hstep]
  have hzipgen : ∀ nc : List Val, zipCols [Val.vlist nc] = .ok (nc.map (fun c => [c])) := by
    intro nc
    simp only [zipCols, pyIterAll, pyIter, minLen, List.map_cons, List.map_nil,
      List.foldl_nil, Except.ok.injEq]
    have hco : (fun r => [nc.getD r Val.vnone]) =
        ((fun c => [c]) ∘ (fun r => nc.getD r Val.vnone)) := rfl
    rw [hco, ← List.map_map, range_map_getD]
  rw [show tablefy ks struct true true =
      (match prettifyHeader (applyExpansions ((splitExprs ks).map Val.vstr)
          [(0, pySort (pyDedup items))]) with
        | .error e => .error e
        | .ok header =>
          match zipCols [Val.vlist ((e0 :: es).map (fun e =>
              Val.vlist ((pySort (pyDedup items)).map (fun v => Val.vbool (pyMem v e))))) ] with
          | .error e => .error e
          | .ok zipped => .ok (flattenRows (header :: zipped))) from by
    simp [tablefy, hcols, hchk, hexp]]
  rw [hsplit]
  rw [show applyExpansions ([s0].map Val.vstr) [(0, pySort (pyDedup items))] =
    [Val.vlist (pySort (pyDedup items))] from rfl]
  rw [show prettifyHeader [Val.vlist (pySort (pyDedup items))] =
    .ok [Val.vlist (pySort (pyDedup items))] from rfl]
  rw [hzipgen]
  simp [flattenRows, flattenRow, flattenCell, Function.comp]

/-- C7 counterexample: two identical expressions over one record whose
sub-list is `[True]`.  Expansion of the first column is a fixed point
(`[[True]]` maps to `[[True]]`), so when the second column is expanded,
`cols.index(col)` finds index 0 again and the header entry of the
second column keeps its un-replaced label `"x"` — the flattened header
row is `[True, "x"]`, not the sorted value list twice. -/
theorem c7_counterexample :
    tablefy ":x, :x" (Val.vlist [Val.vdict [("x", Val.vlist [Val.vbool true])]]) true true =
      .ok [[Val.vbool true, Val.vstr "x"], [Val.vbool true, Val.vbool true]] := by decide

theorem c7_witness :
    tablefy ":x" (Val.vlist [Val.vdict [("x", Val.vlist [Val.vstr "A", Val.vstr "B"])],
        Val.vdict [("x", Val.vlist [Val.vstr "B"])]]) true true =
      .ok [[Val.vstr "A", Val.vstr "B"], [Val.vbool true, Val.vbool true],
        [Val.vbool false, Val.vbool true]] := by
  have h := c7_expand_single ":x"
      (Val.vlist [Val.vdict [("x", Val.vlist [Val.vstr "A", Val.vstr "B"])],
        Val.vdict [("x", Val.vlist [Val.vstr "B"])]])
      [Val.vlist [Val.vstr "A", Val.vstr "B"], Val.vlist [Val.vstr "B"]]
      [Val.vstr "A", Val.vstr "B", Val.vstr "B"]
      (by decide) (by decide) (by decide)
      (by
        intro e he
        rcases List.mem_cons.mp he with rfl | he2
        · exact ⟨[Val.vstr "A", Val.vstr "B"], rfl⟩
        · rcases List.mem_cons.mp he2 with rfl | he3
          · exact ⟨[Val.vstr "B"], rfl⟩
          · simp at he3)
      (by decide)
  exact h.trans (by decide)

theorem heapExtends_refl (h : Heap) : HeapExtends h h := ⟨[], by simp⟩

theorem heapExtends_trans {h1 h2 h3 : Heap} (a : HeapExtends h1 h2) (b : HeapExtends h2 h3) :
    HeapExtends h1 h3 := by
  obtain ⟨e1, rfl⟩ := a
  obtain ⟨e2, rfl⟩ := b
  exact ⟨e1 ++ e2, by simp⟩

theorem heapExtends_alloc (h : Heap) (n : HNode) : HeapExtends h (h ++ [n]) := ⟨[n], rfl⟩

theorem subscriptH_extends {h : Heap} {a : Nat} {k : Key} {b : Nat} {h2 : Heap}
    (hs : subscriptH h a k = .ok (b, h2)) : HeapExtends h h2 := by
  unfold subscriptH at hs
  split at hs
  · split at hs
    · cases hs
      exact heapExtends_refl _
    · cases hs
  · cases hs
  · split at hs
    · cases hs
      exact heapExtends_refl _
    · cases hs
  · cases hs
  · split at hs
    · cases hs
      exact heapExtends_alloc _ _
    · cases hs
  · cases hs
  · cases hs

theorem lastLookupH_extends {h : Heap} {a : Nat} {k : Key} {b : Nat} {h2 : Heap}
    (hs : lastLookupH h a k = .ok (b, h2)) : HeapExtends h h2 := by
  unfold lastLookupH at hs
  dsimp only at hs
  split at hs
  · exact subscriptH_extends hs
  · cases hs
    exact heapExtends_alloc _ _

theorem foldAddrs_extends {f : Nat → Heap → Except Err (Nat × Heap)}
    (hf : ∀ a h r h2, f a h = .ok (r, h2) → HeapExtends h h2) :
    ∀ {l : List Nat} {h : Heap} {rs : List Nat} {h2 : Heap},
    foldAddrs f l h = .ok (rs, h2) → HeapExtends h h2 := by
  intro l
  induction l with
  | nil =>
    intro h rs h2 hh
    cases hh
    exact heapExtends_refl _
  | cons a as1 ih =>
    intro h rs h2 hh
    cases hc : f a h with
    | error e => simp [foldAddrs, hc] at hh
    | ok p =>
      obtain ⟨r, h1⟩ := p
      cases hr : foldAddrs f as1 h1 with
      | error e => simp [foldAddrs, hc, hr] at hh
      | ok q =>
        obtain ⟨rs1, h3⟩ := q
        simp only [foldAddrs, hc, hr] at hh
        cases hh
        exact heapExtends_trans (hf a h r h1 hc) (ih hr)

theorem useKeyHF_extends : ∀ (fuel : Nat) (keys : List Key) (a : Nat) (h : Heap) (r : Nat)
    (h2 : Heap), useKeyHF fuel keys a h = .ok (r, h2) → HeapExtends h h2 := by
  intro fuel
  induction fuel with
  | zero =>
    intro keys a h r h2 hh
    cases hh
  | succ fu ih =>
    intro keys a h r h2 hh
    cases keys with
    | nil => cases hh
    | cons k rest =>
      unfold useKeyHF at hh
      by_cases hk : k = Key.str ""
      · rw [if_pos hk] at hh
        cases hg : heapGet h a with
        | hdict d =>
          simp only [hg] at hh
          by_cases hrest : rest = []
          · rw [if_pos hrest] at hh
            cases hh
            exact heapExtends_alloc _ _
          · rw [if_neg hrest] at hh
            cases hf : foldAddrs (useKeyHF fu rest) (d.map (fun p => p.2)) h with
            | error e => simp [hf] at hh
            | ok p =>
              obtain ⟨items, h1⟩ := p
              simp only [hf] at hh
              cases hh
              exact heapExtends_trans
                (foldAddrs_extends (fun a2 h3 r2 h4 hc => ih rest a2 h3 r2 h4 hc) hf)
                (heapExtends_alloc _ _)
        | hlist l =>
          simp only [hg] at hh
          cases hf : foldAddrs (useKeyHF fu rest) l h with
          | error e => simp [hf] at hh
          | ok p =>
            obtain ⟨items, h1⟩ := p
            simp only [hf] at hh
            cases hh
            exact heapExtends_trans
              (foldAddrs_extends (fun a2 h3 r2 h4 hc => ih rest a2 h3 r2 h4 hc) hf)
              (heapExtends_alloc _ _)
        | hstr s =>
          simp only [hg] at hh
          cases hh
          exact heapExtends_alloc _ _
        | hint n =>
          simp only [hg] at hh
          cases hh
          exact heapExtends_alloc _ _
        | hbool b2 =>
          simp only [hg] at hh
          cases hh
          exact heapExtends_alloc _ _
        | hnone =>
          simp only [hg] at hh
          cases hh
          exact heapExtends_alloc _ _
      · rw [if_neg hk] at hh
        by_cases hrest : rest = []
        · rw [if_pos hrest] at hh
          exact lastLookupH_extends hh
        · rw [if_neg hrest] at hh
          cases hsu : subscriptH h a k with
          | error e => simp [hsu] at hh
          | ok p =>
            obtain ⟨b2, h1⟩ := p
            simp only [hsu] at hh
            exact heapExtends_trans (subscriptH_extends hsu) (ih rest b2 h1 r h2 hh)

theorem useKeyH_extends {keys : List Key} {a : Nat} {h : Heap} {r : Nat} {h2 : Heap}
    (hh : useKeyH keys a h = .ok (r, h2)) : HeapExtends h h2 :=
  useKeyHF_extends _ keys a h r h2 hh

theorem accessListH_extends :
    ∀ {ks : List String} {a : Nat} {h : Heap} {cols : List Nat} {h2 : Heap},
    accessListH ks a h = .ok (cols, h2) → HeapExtends h h2 := by
  intro ks
  induction ks with
  | nil =>
    intro a h cols h2 hh
    cases hh
    exact heapExtends_refl _
  | cons k rest ih =>
    intro a h cols h2 hh
    cases hc : accessH k a h with
    | error e => simp [accessListH, hc] at hh
    | ok p =>
      obtain ⟨c, h1⟩ := p
      cases hr : accessListH rest a h1 with
      | error e => simp [accessListH, hc, hr] at hh
      | ok q =>
        obtain ⟨cs, h3⟩ := q
        simp only [accessListH, hc, hr] at hh
        cases hh
        exact heapExtends_trans (useKeyH_extends hc) (ih hr)

theorem tablefyH_noexpand_extends {ks : String} {a : Nat} {f : Bool} {h : Heap}
    {rows : List (List Val)} {h2 : Heap}
    (hh : tablefyH ks a false f h = .ok (rows, h2)) : HeapExtends h h2 := by
  cases hacc : accessListH (splitExprs ks) a h with
  | error e => simp [tablefyH, hacc] at hh
  | ok p =>
    obtain ⟨cols, h1⟩ := p
    cases hchk : checkColsH h1 cols with
    | error e => simp [tablefyH, hacc, hchk] at hh
    | ok u =>
      cases u
      cases hpr : prettifyHeader ((splitExprs ks).map Val.vstr) with
      | error e => simp [tablefyH, hacc, hchk, applyExpansions, hpr] at hh
      | ok header =>
        cases hz : zipCols (cols.map (readVal h1)) with
        | error e => simp [tablefyH, hacc, hchk, applyExpansions, hpr, hz] at hh
        | ok zipped =>
          simp only [tablefyH, hacc, hchk, applyExpansions, hpr, hz, Bool.false_eq_true,
            if_false] at hh
          cases hh
          exact accessListH_extends hacc

/-- C10: the claim that neither `access` nor `tablefy` ever mutates the
input structure is half right.  In the heap refinement, `use_key` only
reads and allocates, so every heap it produces extends the input heap
cell-for-cell — and the same holds for a whole `tablefy` call with
`expand_lists_to_bool` disabled.  The expansion loop, however, rebinds
the slots of whatever list object `access` returned, and for a
non-fan-out expression that object *is* a sub-list of the input, not a
freshly built column — so `tablefy` with expansion enabled can mutate
its input (see the counterexample).  Amended claim: `access` never
mutates any existing object (the heap only grows), and neither does
`tablefy` with `expand_lists_to_bool=False`; with expansion enabled the
no-mutation guarantee fails. -/
theorem c10_no_mutation_without_expansion :
    (∀ (keys : List Key) (a : Nat) (h : Heap) (r : Nat) (h2 : Heap),
      useKeyH keys a h = .ok (r, h2) → HeapExtends h h2) ∧
    (∀ (ks : String) (a : Nat) (f : Bool) (h : Heap) (rows : List (List Val)) (h2 : Heap),
      tablefyH ks a false f h = .ok (rows, h2) → HeapExtends h h2) :=
  ⟨fun _ _ _ _ _ hh => useKeyH_extends hh,
   fun _ _ _ _ _ _ hh => tablefyH_noexpand_extends hh⟩

/-- C10 counterexample: `tablefy('x', struct, expand_lists_to_bool=True)`
where `struct` is `vdict [("x", vlist [vlist [vint 1], vlist [vint 2]])]`
laid out in `c10Heap` at address 5.  The expression `'x'` is a plain
lookup, so the column aliases the input's inner list (address 4); the
expansion loop rebinds that node's slots to freshly allocated boolean
lists, and reading the input back after the call gives a different
structure than before — the caller's data was mutated. -/
theorem c10_counterexample :
    tablefyH "x" 5 true true c10Heap =
      .ok ([[Val.vint 1, Val.vint 2], [Val.vbool true, Val.vbool false],
            [Val.vbool false, Val.vbool true]],
        [HNode.hint 1, HNode.hlist [0], HNode.hint 2, HNode.hlist [2], HNode.hlist [8, 11],
         HNode.hdict [("x", 4)], HNode.hbool true, HNode.hbool false, HNode.hlist [6, 7],
         HNode.hbool false, HNode.hbool true, HNode.hlist [9, 10]]) ∧
    readVal [HNode.hint 1, HNode.hlist [0], HNode.hint 2, HNode.hlist [2], HNode.hlist [8, 11],
         HNode.hdict [("x", 4)], HNode.hbool true, HNode.hbool false, HNode.hlist [6, 7],
         HNode.hbool false, HNode.hbool true, HNode.hlist [9, 10]] 5 ≠ readVal c10Heap 5 := by
  decide

theorem c10_witness : HeapExtends c10Heap c10Heap :=
  c10_no_mutation_without_expansion.2 "x" 5 true c10Heap
    [[Val.vstr "x"], [Val.vint 1], [Val.vint 2]] c10Heap (by decide)
